import Mathlib

/-!
Verification of the `MidiWriter` MIDI file writing library
(`midi_writer.py`).  The development is a shallow embedding of the
class: Python byte strings are `List Nat` (each entry in `[0, 256)`),
Python integers are `Int`, and the fallible paths (exceptions raised by
`int.to_bytes` and `struct.pack`) are modelled with `Option`.
-/

namespace Midi

/-- An entry of `Track.events`: the absolute tick (a Python int)
paired with the event's raw bytes. -/
abbrev Event := Int × List Nat

/-- Model of the nested class `MidiWriter.Track`: it stores only the
list of `(tick, event_bytes)` pairs. -/
structure Track where
  events : List Event
deriving DecidableEq

/-- Model of `MidiWriter`: the fixed resolution `ticks_per_quarter`
(480 from the constructor), the track list, and the `channel_program`
dictionary, modelled as an insertion-ordered association list exactly
like a Python dict. -/
structure MidiWriter where
  ticks_per_quarter : Nat
  tracks : List Track
  channel_program : List (Int × Int)
deriving DecidableEq

/-- Result of the constructor `MidiWriter()`. -/
def freshWriter : MidiWriter :=
  { ticks_per_quarter := 480, tracks := [], channel_program := [] }

/-- Insertion step of the stable sort: an event is placed before the
first entry whose tick is not strictly smaller, so that inserting
elements from the right end of the original list keeps equal-tick
events in their original order. -/
def insertEvent (e : Event) : List Event → List Event
  | [] => [e]
  | x :: xs => if x.1 < e.1 then x :: insertEvent e xs else e :: x :: xs

/-- Model of `Track.sort_events`, i.e. of
`self.events.sort(key=lambda ev: ev[0])`.  Python's `list.sort` is
specified to be a stable sort on the key `ev[0]`; any two stable sorts
by the same key have the same output, and the insertion sort used here
is proved below to sort by tick (`sort_events_sorted`), to permute the
input (`sort_events_perm`) and to be stable (`sort_events_filter`), so
it is the denotation of the source's sort call. -/
def sort_events : List Event → List Event
  | [] => []
  | e :: es => insertEvent e (sort_events es)

/-- First loop of `encode_var_len`, entered with the already shifted
value: `while value > 0: buffer = (buffer << 8) | ((value & 0x7F) |
0x80); value >>= 7`.  On a positive Python int, `value & 0x7F` is
`value % 128` and `value >> 7` is `value / 128`.  The loop is written
with an explicit iteration budget so that it is structurally
recursive; the budget `fuel = value` used by `vlqPack` is never
exhausted because each pass divides `value` by 128 (this is implied by
the characterisation lemma `vlqPack_eq_foldl` below, whose hypothesis
is only `value ≤ fuel`). -/
def vlqPackAux : Nat → Nat → Nat → Nat
  | 0, _, buffer => buffer
  | fuel + 1, value, buffer =>
    if 0 < value then
      vlqPackAux fuel (value / 128) ((buffer <<< 8) ||| ((value % 128) ||| 128))
    else buffer

/-- The packing loop with its (sufficient) iteration budget. -/
def vlqPack (value buffer : Nat) : Nat :=
  vlqPackAux value value buffer

/-- Second loop of `encode_var_len`: emit `buffer & 0xFF`, and repeat
on `buffer >> 8` while the emitted byte has the continuation bit
`0x80` set.  As above, an explicit budget (one unit per emitted byte
after the first) makes the loop structurally recursive; `fuel =
buffer` suffices because each pass divides `buffer` by 256. -/
def vlqUnpackAux : Nat → Nat → List Nat
  | 0, buffer => [buffer &&& 255]
  | fuel + 1, buffer =>
    if buffer &&& 128 ≠ 0 then (buffer &&& 255) :: vlqUnpackAux fuel (buffer >>> 8)
    else [buffer &&& 255]

/-- The byte-extraction loop with its (sufficient) iteration budget. -/
def vlqUnpack (buffer : Nat) : List Nat :=
  vlqUnpackAux buffer buffer

/-- Model of `MidiWriter.encode_var_len` on an arbitrary Python int.
On a (possibly negative) Python int, `value & 0x7F` is the
floor-modulus `value.emod 128` and `value >> 7` is the floor division
`value.fdiv 128`; `(value.fdiv 128).toNat` is `0` exactly when the
shifted value is `≤ 0`, in which case the `while value > 0` loop body
never runs. -/
def encode_var_len (value : Int) : List Nat :=
  vlqUnpack (vlqPack ((value.fdiv 128).toNat) ((value.emod 128).toNat))

/-- A variable-length-quantity decoder (the specification asks tests to
construct a matching decoder): most-significant-first Horner
accumulation of the low seven bits of every byte. -/
def decode_var_len (bs : List Nat) : Nat :=
  bs.foldl (fun acc b => acc * 128 + (b &&& 127)) 0

/-- The specification's description of the variable-length-quantity
encoding: the base-128 digits of `v`, most significant group first
(the single group `0` when `v = 0`), with the continuation bit `0x80`
added to every byte except the last. -/
def vlqSpecEncode (v : Nat) : List Nat :=
  let gs := (Nat.digits 128 v).reverse
  let gs := if gs = [] then [0] else gs
  gs.dropLast.map (fun g => g + 128) ++ [gs.getLastD 0]

/-- Model of `int.to_bytes(3, byteorder="big")`: three big-endian
bytes, raising `OverflowError` (modelled as `none`) unless
`0 ≤ t < 2 ^ 24`. -/
def toBytes3 (t : Int) : Option (List Nat) :=
  if 0 ≤ t ∧ t < 2 ^ 24 then
    some [t.toNat / 2 ^ 16 % 256, t.toNat / 2 ^ 8 % 256, t.toNat % 256]
  else none

/-- Big-endian 16-bit field as produced by `struct.pack(">h")` on an
in-range value. -/
def be16 (n : Nat) : List Nat := [n / 256 % 256, n % 256]

/-- Big-endian 32-bit field as produced by `struct.pack(">I")` on an
in-range value. -/
def be32 (n : Nat) : List Nat :=
  [n / 2 ^ 24 % 256, n / 2 ^ 16 % 256, n / 2 ^ 8 % 256, n % 256]

/-- Model of `addTrack`: append a fresh empty `Track` and return the
new writer together with `len(self.tracks) - 1`. -/
def addTrack (w : MidiWriter) : MidiWriter × Nat :=
  let tracks := w.tracks ++ [{ events := [] }]
  ({ w with tracks := tracks }, tracks.length - 1)

/-- Effect of the `while track_idx >= len(self.tracks):
self.addTrack()` loop inside `_get_track`: the loop appends exactly
`track_idx + 1 - len(self.tracks)` empty tracks (zero when the index
already exists). -/
def extendTracks (tracks : List Track) (track_idx : Nat) : List Track :=
  tracks ++ List.replicate (track_idx + 1 - tracks.length) { events := [] }

/-- Appending an event to the track object at an existing index: this
is `Track.add_event` applied to the alias returned by `_get_track`. -/
def appendEventAt : List Track → Nat → Event → List Track
  | [], _, _ => []
  | t :: ts, 0, e => { events := t.events ++ [e] } :: ts
  | t :: ts, n + 1, e => t :: appendEventAt ts n e

/-- Combination `self._get_track(i).add_event(tick, ev)` used by every
mutator: auto-extend the track list, then append the event to track
`i`. -/
def addEventAt (w : MidiWriter) (i : Nat) (tick : Int) (ev : List Nat) : MidiWriter :=
  { w with tracks := appendEventAt (extendTracks w.tracks i) i (tick, ev) }

/-- Python dict assignment `d[k] = v`: an existing key keeps its
position and gets the new value, a new key is appended. -/
def dictSet (d : List (Int × Int)) (k v : Int) : List (Int × Int) :=
  if d.any (fun p => p.1 = k) then d.map (fun p => if p.1 = k then (k, v) else p)
  else d ++ [(k, v)]

/-- Model of `setChannel(channel, program)`: record the program for
the channel and append a program change at tick 0 of track 0.  In the
byte `0xC0 | (channel & 0x0F)`, the Python mask `channel & 0x0F` on a
possibly negative int is `(channel.emod 16).toNat`, and similarly
`program & 0x7F` is `(program.emod 128).toNat`. -/
def setChannel (w : MidiWriter) (channel program : Int) : MidiWriter :=
  let w1 := { w with channel_program := dictSet w.channel_program channel program }
  addEventAt w1 0 0 [0xC0 ||| (channel.emod 16).toNat, (program.emod 128).toNat]

/-- Validation guard of `addBPM`; when it holds the method prints the
"[W] Could not add BPM" warning and returns without touching any
state. -/
def addBPMWarns (track start bpm : Int) : Bool :=
  track < 0 || start < 0 || bpm ≤ 0

/-- Model of `addBPM(track, start, bpm)`.  The `none` result is the
uncaught `OverflowError` raised by `tempo.to_bytes(3, "big")` when the
tempo does not fit in three bytes (the `try/except` in the source only
wraps the validation).  For an integer `bpm > 0`, the source's
`int(60000000 / bpm)` — float true division then truncation toward
zero — equals the exact integer division `60000000 / bpm`: the exact
quotient is either an integer below `2 ^ 53` (hence exactly
representable and exactly returned) or at distance `≥ 1 / bpm` from
the nearest integers, while the correctly rounded float division has
error at most `60000000 / bpm * 2 ^ (-53) < 1 / bpm`. -/
def addBPM (w : MidiWriter) (track start bpm : Int) : Option MidiWriter :=
  if addBPMWarns track start bpm then some w
  else
    let tick := start
    let tempo : Int := 60000000 / bpm
    match toBytes3 tempo with
    | none => none
    | some tempo_bytes =>
        some (addEventAt w track.toNat tick ([0xFF, 0x51, 0x03] ++ tempo_bytes))

/-- Validation guard of `addNote`; when it holds the method prints the
"[W] Could not add note!" warning and returns without touching any
state. -/
def addNoteWarns (track channel start duration velocity : Int) : Bool :=
  track < 0 || channel < 0 || start < 0 || duration ≤ 0 ||
    !(0 ≤ velocity && velocity ≤ 127)

/-- Model of `addNote(track, channel, start, duration, pitch,
velocity)`: after validation, append a note-on at `start` and a
note-off at `start + duration` to the same track. -/
def addNote (w : MidiWriter) (track channel start duration pitch velocity : Int) :
    MidiWriter :=
  if addNoteWarns track channel start duration velocity then w
  else
    let start_tick := start
    let end_tick := start + duration
    let note_on : List Nat :=
      [0x90 ||| (channel.emod 16).toNat, (pitch.emod 128).toNat, (velocity.emod 128).toNat]
    let note_off : List Nat :=
      [0x80 ||| (channel.emod 16).toNat, (pitch.emod 128).toNat, 0]
    addEventAt (addEventAt w track.toNat start_tick note_on) track.toNat end_tick note_off

/-- Event loop of `save` for one (already sorted) track: for each
event emit the variable-length delta since the previous tick followed
by the event's bytes. -/
def renderEvents (prev_tick : Int) : List Event → List Nat
  | [] => []
  | (tick, event) :: rest =>
      encode_var_len (tick - prev_tick) ++ event ++ renderEvents tick rest

/-- The delta times computed by that loop (used to state that none of
them is negative). -/
def deltaTimes (prev_tick : Int) : List Event → List Int
  | [] => []
  | (tick, _) :: rest => (tick - prev_tick) :: deltaTimes tick rest

/-- The `track_data` payload of one track chunk: delta-encoded events
followed by a zero delta and the end-of-track meta event
`FF 2F 00`. -/
def trackPayload (trk : Track) : List Nat :=
  renderEvents 0 trk.events ++ encode_var_len 0 ++ [0xFF, 0x2F, 0x00]

/-- One `MTrk` chunk: the ASCII tag, the payload length packed with
`struct.pack(">I")` (which raises, modelled `none`, for lengths
outside 32 bits), then the payload. -/
def trackChunk (trk : Track) : Option (List Nat) :=
  let track_data := trackPayload trk
  if track_data.length < 2 ^ 32 then
    some ([0x4D, 0x54, 0x72, 0x6B] ++ be32 track_data.length ++ track_data)
  else none

/-- Concatenation of all track chunks, in track-list order; `none` as
soon as one chunk fails to pack. -/
def chunksJoin : List Track → Option (List Nat)
  | [] => some []
  | t :: ts =>
    match trackChunk t, chunksJoin ts with
    | some c, some cs => some (c ++ cs)
    | _, _ => none

/-- The in-place mutation performed at the top of `save`: every
track's event list is sorted by tick.  This is the writer state left
behind by a call to `save`. -/
def savePost (w : MidiWriter) : MidiWriter :=
  { w with tracks := w.tracks.map (fun t => { events := sort_events t.events }) }

/-- The bytes written by `save` (the file write itself is outside the
model): sort every track, build the `MThd` header whose data is
`struct.pack(">hhh", format, num_tracks, ticks_per_quarter)` — which
raises, modelled `none`, when a field leaves the signed 16-bit range —
then append every track chunk. -/
def saveBytes (w : MidiWriter) : Option (List Nat) :=
  let ws := savePost w
  let num_tracks := ws.tracks.length
  let midi_format : Nat := if num_tracks > 1 then 1 else 0
  if num_tracks ≤ 32767 ∧ ws.ticks_per_quarter ≤ 32767 then
    match chunksJoin ws.tracks with
    | some chunks =>
        some (([0x4D, 0x54, 0x68, 0x64] ++ be32 6 ++ be16 midi_format
          ++ be16 num_tracks ++ be16 ws.ticks_per_quarter) ++ chunks)
    | none => none
  else none

/-- Documents constructible through the public mutator interface
(`addTrack`, `setChannel`, `addBPM`, `addNote`), starting from a fresh
writer.  An `addBPM` step is recorded only when the call returns
(rejected calls return the unchanged writer, so they are covered). -/
inductive Reachable : MidiWriter → Prop
  | fresh : Reachable freshWriter
  | step_addTrack {w} : Reachable w → Reachable (addTrack w).1
  | step_setChannel {w c p} : Reachable w → Reachable (setChannel w c p)
  | step_addBPM {w t s b w'} : Reachable w → addBPM w t s b = some w' → Reachable w'
  | step_addNote {w t c s d p v} : Reachable w → Reachable (addNote w t c s d p v)

/-- All event ticks stored in the writer are non-negative. -/
def ticksNonneg (w : MidiWriter) : Prop :=
  ∀ trk ∈ w.tracks, ∀ ev ∈ trk.events, 0 ≤ ev.1

/-! ### Properties of the render-time sort -/

theorem insertEvent_perm (e : Event) (l : List Event) :
    List.Perm (insertEvent e l) (e :: l) := by
  induction l with
  | nil => rfl
  | cons x xs ih =>
    simp only [insertEvent]
    split
    · exact (ih.cons x).trans (List.Perm.swap e x xs)
    · rfl

theorem sort_events_perm (l : List Event) : List.Perm (sort_events l) l := by
  induction l with
  | nil => rfl
  | cons e es ih =>
    exact (insertEvent_perm e (sort_events es)).trans (ih.cons e)

theorem insertEvent_sorted {e : Event} {l : List Event}
    (h : l.Pairwise (fun a b => a.1 ≤ b.1)) :
    (insertEvent e l).Pairwise (fun a b => a.1 ≤ b.1) := by
  induction l with
  | nil => simp [insertEvent]
  | cons x xs ih =>
    rw [List.pairwise_cons] at h
    obtain ⟨hx, hxs⟩ := h
    simp only [insertEvent]
    split
    case isTrue hlt =>
      refine List.Pairwise.cons ?_ (ih hxs)
      intro b hb
      rcases List.mem_cons.mp ((insertEvent_perm e xs).mem_iff.mp hb) with rfl | hbxs
      · exact le_of_lt hlt
      · exact hx b hbxs
    case isFalse hlt =>
      refine List.Pairwise.cons ?_ (List.Pairwise.cons hx hxs)
      intro b hb
      rcases List.mem_cons.mp hb with rfl | hb
      · exact le_of_not_lt hlt
      · exact le_trans (le_of_not_lt hlt) (hx b hb)

theorem sort_events_sorted (l : List Event) :
    (sort_events l).Pairwise (fun a b => a.1 ≤ b.1) := by
  induction l with
  | nil => simp [sort_events]
  | cons e es ih => exact insertEvent_sorted ih

/-- Inserting an element behaves, through any tick-keyed filter,
exactly like putting it in front: the insertion point is before every
event of equal tick. -/
theorem filter_insertEvent (k : Int) (e : Event) (l : List Event) :
    (insertEvent e l).filter (fun x => x.1 == k) = (e :: l).filter (fun x => x.1 == k) := by
  induction l with
  | nil => rfl
  | cons x xs ih =>
    simp only [insertEvent]
    split
    case isTrue hlt =>
      by_cases pe : e.1 = k
      · by_cases px : x.1 = k
        · exact absurd (px.trans pe.symm) (ne_of_lt hlt)
        · simp [List.filter_cons, px, pe, ih]
      · by_cases px : x.1 = k <;> simp [List.filter_cons, px, pe, ih]
    case isFalse hlt => rfl

/-- Stability of the render-time sort: for every tick value, the
events carrying that tick appear in the sorted list exactly in their
original order. -/
theorem sort_events_filter (k : Int) (l : List Event) :
    (sort_events l).filter (fun x => x.1 == k) = l.filter (fun x => x.1 == k) := by
  induction l with
  | nil => rfl
  | cons e es ih =>
    show (insertEvent e (sort_events es)).filter _ = _
    rw [filter_insertEvent]
    by_cases pe : e.1 = k <;> simp [List.filter_cons, pe, ih]

theorem sort_events_eq_self {l : List Event}
    (h : l.Pairwise (fun a b => a.1 ≤ b.1)) : sort_events l = l := by
  induction l with
  | nil => rfl
  | cons e es ih =>
    rw [List.pairwise_cons] at h
    obtain ⟨he, hes⟩ := h
    show insertEvent e (sort_events es) = e :: es
    rw [ih hes]
    cases es with
    | nil => rfl
    | cons y ys =>
      have : ¬y.1 < e.1 := not_lt_of_le (he y (List.mem_cons_self y ys))
      simp [insertEvent, this]

theorem sort_events_idem (l : List Event) :
    sort_events (sort_events l) = sort_events l :=
  sort_events_eq_self (sort_events_sorted l)

theorem savePost_idem (w : MidiWriter) : savePost (savePost w) = savePost w := by
  simp [savePost, List.map_map, Function.comp_def, sort_events_idem]

/-! ### Characterisation of the variable-length encoding -/

theorem and_255_eq_mod (n : Nat) : n &&& 255 = n % 256 := by
  have h := Nat.and_pow_two_sub_one_eq_mod n 8
  norm_num at h
  exact h

theorem and_127_eq_mod (n : Nat) : n &&& 127 = n % 128 := by
  have h := Nat.and_pow_two_sub_one_eq_mod n 7
  norm_num at h
  exact h

theorem and_128_eq (n : Nat) : n &&& 128 = if n / 128 % 2 = 1 then 128 else 0 := by
  have h := Nat.and_two_pow n 7
  rw [Nat.testBit_to_div_mod] at h
  norm_num at h
  by_cases hc : n / 128 % 2 = 1 <;> simp [hc] at h <;> simp [hc, h]

theorem shiftLeft8_or_eq (b x : Nat) (h : x < 256) : (b <<< 8) ||| x = b * 256 + x := by
  rw [Nat.shiftLeft_eq, Nat.mul_comm b (2 ^ 8),
    ← Nat.mul_add_lt_is_or (show x < 2 ^ 8 by norm_num [h]) b]

theorem or_128_eq (d : Nat) (h : d < 128) : d ||| 128 = d + 128 := by
  have h2 := Nat.mul_add_lt_is_or (i := 7) (show d < 2 ^ 7 by norm_num [h]) 1
  rw [Nat.lor_comm]
  norm_num at h2
  omega

/-- Unwinding the packing loop: starting from `buffer` it performs one
Horner step in base 256 for every base-128 digit of `value`, adding the
continuation bit to each digit. -/
theorem vlqPackAux_eq_foldl (fuel value buffer : Nat) (h : value ≤ fuel) :
    vlqPackAux fuel value buffer
      = (Nat.digits 128 value).foldl (fun acc d => acc * 256 + (d + 128)) buffer := by
  induction fuel generalizing value buffer with
  | zero =>
    have hv : value = 0 := Nat.le_zero.mp h
    subst hv
    simp [vlqPackAux]
  | succ f ih =>
    by_cases hv : 0 < value
    · have step : vlqPackAux (f + 1) value buffer
          = vlqPackAux f (value / 128) ((buffer <<< 8) ||| ((value % 128) ||| 128)) := by
        simp [vlqPackAux, hv]
      rw [step, Nat.digits_def' (by norm_num : (1 : ℕ) < 128) hv, List.foldl_cons,
        ih (value / 128) _ (by omega),
        or_128_eq _ (Nat.mod_lt _ (by norm_num)),
        shiftLeft8_or_eq _ _ (by have := Nat.mod_lt value (show 0 < 128 by norm_num); omega)]
    · have hv0 : value = 0 := by omega
      subst hv0
      simp [vlqPackAux]

/-- A buffer below 128 has no continuation bit: the extraction loop
emits exactly one byte, whatever its budget. -/
theorem vlqUnpackAux_small (fuel b : Nat) (h : b < 128) : vlqUnpackAux fuel b = [b] := by
  have h128 : b &&& 128 = 0 := by simp [and_128_eq, Nat.div_eq_of_lt h]
  have h255 : b &&& 255 = b := by rw [and_255_eq_mod]; omega
  cases fuel <;> simp [vlqUnpackAux, h128, h255]

/-- Unwinding the extraction loop on a packed buffer: it recovers the
marked digits most-significant first, then the final unmarked digit. -/
theorem vlqUnpackAux_foldl (ds : List Nat) (b : Nat) (hb : b < 128)
    (hds : ∀ d ∈ ds, d < 128) (fuel : Nat)
    (hfuel : ds.foldl (fun acc d => acc * 256 + (d + 128)) b ≤ fuel + 1) :
    vlqUnpackAux fuel (ds.foldl (fun acc d => acc * 256 + (d + 128)) b)
      = ds.reverse.map (fun d => d + 128) ++ [b] := by
  induction ds using List.reverseRecOn generalizing fuel with
  | nil => simpa using vlqUnpackAux_small fuel b hb
  | append_singleton ds d ihds =>
    have hd : d < 128 := hds d (by simp)
    have hds' : ∀ x ∈ ds, x < 128 := fun x hx => hds x (by simp [hx])
    rw [List.foldl_append] at hfuel ⊢
    simp only [List.foldl_cons, List.foldl_nil] at hfuel ⊢
    set X := ds.foldl (fun acc d => acc * 256 + (d + 128)) b with hX
    have hbig : 128 ≤ X * 256 + (d + 128) := by omega
    obtain ⟨f, rfl⟩ : ∃ f, fuel = f + 1 := ⟨fuel - 1, by omega⟩
    have hcont : (X * 256 + (d + 128)) &&& 128 ≠ 0 := by
      rw [and_128_eq]
      have : (X * 256 + (d + 128)) / 128 % 2 = 1 := by omega
      simp [this]
    have hbyte : (X * 256 + (d + 128)) &&& 255 = d + 128 := by
      rw [and_255_eq_mod]; omega
    have hshift : (X * 256 + (d + 128)) >>> 8 = X := by
      rw [Nat.shiftRight_eq_div_pow]; norm_num; omega
    rw [show vlqUnpackAux (f + 1) (X * 256 + (d + 128))
        = ((X * 256 + (d + 128)) &&& 255)
          :: vlqUnpackAux f ((X * 256 + (d + 128)) >>> 8) by simp [vlqUnpackAux, hcont]]
    rw [hbyte, hshift, ihds hds' f (by omega)]
    simp

/-- On a natural number the embedding specialises to plain `Nat`
division and remainder. -/
theorem encode_var_len_ofNat (v : Nat) :
    encode_var_len (v : Int) = vlqUnpack (vlqPack (v / 128) (v % 128)) := by
  have h1 : ((v : Int).fdiv 128).toNat = v / 128 := by
    rw [Int.fdiv_eq_ediv _ (by norm_num)]
    omega
  have h2 : ((v : Int).emod 128).toNat = v % 128 := by
    show ((v : Int) % 128).toNat = v % 128
    omega
  unfold encode_var_len
  rw [h1, h2]

/-- The reference encoder agrees with the specification's digit
description on every natural number. -/
theorem encode_eq_marked_digits (v : Nat) :
    encode_var_len (v : Int)
      = (Nat.digits 128 (v / 128)).reverse.map (fun d => d + 128) ++ [v % 128] := by
  rw [encode_var_len_ofNat]
  unfold vlqPack vlqUnpack
  rw [vlqPackAux_eq_foldl _ _ _ le_rfl]
  exact vlqUnpackAux_foldl _ _ (Nat.mod_lt _ (by norm_num))
    (fun d hd => Nat.digits_lt_base (by norm_num) hd) _ (by omega)

theorem vlqSpecEncode_eq (v : Nat) :
    vlqSpecEncode v
      = (Nat.digits 128 (v / 128)).reverse.map (fun d => d + 128) ++ [v % 128] := by
  unfold vlqSpecEncode
  by_cases hv : v = 0
  · subst hv; simp
  · rw [Nat.digits_def' (by norm_num : (1 : ℕ) < 128) (Nat.pos_of_ne_zero hv)]
    simp only [List.reverse_cons]
    rw [if_neg (by simp), List.dropLast_concat, List.getLastD_concat]

/-- Decoding a marked digit block performs Horner evaluation of the
original digits. -/
theorem decode_marked (ds : List Nat) (hds : ∀ d ∈ ds, d < 128) (a : Nat) :
    (ds.reverse.map (fun d => d + 128)).foldl (fun acc b => acc * 128 + (b &&& 127)) a
      = a * 128 ^ ds.length + Nat.ofDigits 128 ds := by
  induction ds generalizing a with
  | nil => simp
  | cons d ds ih =>
    have hd : d < 128 := hds d (by simp)
    simp only [List.reverse_cons, List.map_append, List.map_cons, List.map_nil,
      List.foldl_append, List.foldl_cons, List.foldl_nil,
      ih (fun x hx => hds x (by simp [hx])) a, List.length_cons, Nat.ofDigits_cons]
    rw [and_127_eq_mod]
    have : (d + 128) % 128 = d := by omega
    rw [this]
    ring

/-- Round trip of the variable-length encoding. -/
theorem decode_encode (v : Nat) : decode_var_len (encode_var_len (v : Int)) = v := by
  rw [encode_eq_marked_digits]
  unfold decode_var_len
  rw [List.foldl_append,
    decode_marked _ (fun d hd => Nat.digits_lt_base (by norm_num) hd) 0]
  simp only [List.foldl_cons, List.foldl_nil, Nat.ofDigits_digits, Nat.zero_mul,
    Nat.zero_add]
  rw [and_127_eq_mod]
  have := Nat.mod_lt v (show 0 < 128 by norm_num)
  omega

/-- The encoding is one byte long exactly on values below `0x80`. -/
theorem encode_single_iff (v : Nat) : (encode_var_len (v : Int)).length = 1 ↔ v < 128 := by
  rw [encode_eq_marked_digits]
  simp only [List.length_append, List.length_map, List.length_reverse,
    List.length_cons, List.length_nil]
  constructor
  · intro h
    have hd : (Nat.digits 128 (v / 128)).length = 0 := by omega
    have hnil : Nat.digits 128 (v / 128) = [] := List.length_eq_zero.mp hd
    have : v / 128 = 0 := Nat.digits_eq_nil_iff_eq_zero.mp hnil
    omega
  · intro h
    have : v / 128 = 0 := Nat.div_eq_of_lt h
    simp [this]

/-- On any negative Python int the encoder's shifted value is negative,
so the packing loop never runs and the single byte `value mod 128` is
produced. -/
theorem encode_var_len_neg_eq {v : Int} (h : v < 0) :
    encode_var_len v = [(v.emod 128).toNat] := by
  obtain ⟨m, rfl⟩ := Int.eq_negSucc_of_lt_zero h
  have hf : (Int.negSucc m).fdiv 128 = Int.negSucc (m / 128) := rfl
  have hb : ((Int.negSucc m).emod 128).toNat < 128 := by
    show ((Int.negSucc m) % 128).toNat < 128
    omega
  unfold encode_var_len
  rw [hf]
  rw [show ((Int.negSucc (m / 128)).toNat) = 0 from rfl]
  rw [show vlqPack 0 ((Int.negSucc m).emod 128).toNat
      = ((Int.negSucc m).emod 128).toNat from rfl]
  exact vlqUnpackAux_small _ _ hb

/-! ### Track-list and reachability lemmas -/

theorem mem_extendTracks {ts : List Track} {i : Nat} {trk : Track}
    (h : trk ∈ extendTracks ts i) : trk ∈ ts ∨ trk = { events := [] } := by
  rcases List.mem_append.mp h with h | h
  · exact Or.inl h
  · exact Or.inr (List.eq_of_mem_replicate h)

theorem mem_appendEventAt {ts : List Track} {i : Nat} {e : Event} {trk : Track}
    (h : trk ∈ appendEventAt ts i e) :
    trk ∈ ts ∨ ∃ t ∈ ts, trk = { events := t.events ++ [e] } := by
  induction ts generalizing i with
  | nil => simp [appendEventAt] at h
  | cons t ts ih =>
    cases i with
    | zero =>
      rcases List.mem_cons.mp h with h | h
      · exact Or.inr ⟨t, List.mem_cons_self t ts, h⟩
      · exact Or.inl (List.mem_cons_of_mem _ h)
    | succ n =>
      rcases List.mem_cons.mp h with rfl | h
      · exact Or.inl (List.mem_cons_self _ _)
      · rcases ih h with h | ⟨u, hu, rfl⟩
        · exact Or.inl (List.mem_cons_of_mem _ h)
        · exact Or.inr ⟨u, List.mem_cons_of_mem _ hu, rfl⟩

theorem ticksNonneg_addEventAt {w : MidiWriter} {i : Nat} {tick : Int} {ev : List Nat}
    (hw : ticksNonneg w) (ht : 0 ≤ tick) : ticksNonneg (addEventAt w i tick ev) := by
  intro trk htrk e he
  rcases mem_appendEventAt htrk with h | ⟨t, hti, rfl⟩
  · rcases mem_extendTracks h with h | rfl
    · exact hw trk h e he
    · simp at he
  · rcases List.mem_append.mp he with h | h
    · rcases mem_extendTracks hti with h2 | rfl
      · exact hw t h2 e h
      · simp at h
    · have := List.mem_singleton.mp h
      subst this
      exact ht

theorem reachable_ticksNonneg {w : MidiWriter} (h : Reachable w) : ticksNonneg w := by
  induction h with
  | fresh => intro trk htrk; simp [freshWriter] at htrk
  | step_addTrack _ ih =>
    intro trk htrk e he
    rcases List.mem_append.mp htrk with h | h
    · exact ih trk h e he
    · have := List.mem_singleton.mp h
      subst this
      simp at he
  | step_setChannel _ ih =>
    exact ticksNonneg_addEventAt (fun trk htrk => ih trk htrk) le_rfl
  | step_addBPM _ heq ih =>
    unfold addBPM at heq
    split at heq
    · injection heq with heq
      subst heq
      exact ih
    · rename_i hguard
      dsimp only at heq
      split at heq
      · exact absurd heq (by simp)
      · injection heq with heq
        subst heq
        refine ticksNonneg_addEventAt ih ?_
        simp [addBPMWarns] at hguard
        omega
  | step_addNote _ ih =>
    unfold addNote
    split
    · exact ih
    · rename_i hguard
      simp [addNoteWarns] at hguard
      refine ticksNonneg_addEventAt (ticksNonneg_addEventAt ih ?_) ?_ <;> omega

theorem reachable_tpq {w : MidiWriter} (h : Reachable w) : w.ticks_per_quarter = 480 := by
  induction h with
  | fresh => rfl
  | step_addTrack _ ih => simpa [addTrack] using ih
  | step_setChannel _ ih => simpa [setChannel, addEventAt] using ih
  | step_addBPM _ heq ih =>
    unfold addBPM at heq
    split at heq
    · injection heq with heq
      subst heq
      exact ih
    · dsimp only at heq
      split at heq
      · exact absurd heq (by simp)
      · injection heq with heq
        subst heq
        simpa [addEventAt] using ih
  | step_addNote _ ih =>
    unfold addNote
    split
    · exact ih
    · simpa [addEventAt] using ih

theorem deltaTimes_nonneg {l : List Event} {prev : Int}
    (hprev : ∀ e ∈ l, prev ≤ e.1) (hs : l.Pairwise (fun a b => a.1 ≤ b.1)) :
    ∀ d ∈ deltaTimes prev l, 0 ≤ d := by
  induction l generalizing prev with
  | nil => simp [deltaTimes]
  | cons e es ih =>
    obtain ⟨t, ev⟩ := e
    rw [List.pairwise_cons] at hs
    intro d hd
    rcases List.mem_cons.mp hd with rfl | hd
    · have := hprev (t, ev) (List.mem_cons_self _ _)
      simp at this
      omega
    · exact ih (fun x hx => hs.1 x hx) hs.2 d hd

/-! ### The claims -/

/-- C1: on a fresh Document, `addTempo(track=0, start=0, bpm=120)`
followed by `addNote(track=0, channel=0, start=0, duration=480,
pitch=60, velocity=120)` renders exactly one track whose chunk payload
is exactly `00 FF 51 03 07 A1 20`, then `00 90 3C 78`, then
`83 60 80 3C 00`, then `00 FF 2F 00`. -/
theorem claim1_end_to_end_payload :
    ((addBPM freshWriter 0 0 120).map fun w =>
        (savePost (addNote w 0 0 0 480 60 120)).tracks.map trackPayload)
      = some [[0x00, 0xFF, 0x51, 0x03, 0x07, 0xA1, 0x20,
               0x00, 0x90, 0x3C, 0x78,
               0x83, 0x60, 0x80, 0x3C, 0x00,
               0x00, 0xFF, 0x2F, 0x00]] := by
  decide

/-- C2: for every `v < 2 ^ 28`, `encode_var_len v` is the MIDI
variable-length quantity encoding of `v` (its 7-bit groups, most
significant first, continuation bit set on every byte but the last),
decoding it yields `v` again, `encode_var_len 0` is the single byte
`0x00`, and the result is a single byte if and only if `v < 0x80`. -/
theorem claim2_vlq_roundtrip (v : Nat) (hv : v < 2 ^ 28) :
    encode_var_len (v : Int) = vlqSpecEncode v ∧
    decode_var_len (encode_var_len (v : Int)) = v ∧
    encode_var_len ((0 : Nat) : Int) = [0] ∧
    ((encode_var_len (v : Int)).length = 1 ↔ v < 128) :=
  ⟨(encode_eq_marked_digits v).trans (vlqSpecEncode_eq v).symm,
   decode_encode v, by decide, encode_single_iff v⟩

theorem claim2_vlq_roundtrip_witness :
    encode_var_len ((1000000 : Nat) : Int) = vlqSpecEncode 1000000 ∧
    decode_var_len (encode_var_len ((1000000 : Nat) : Int)) = 1000000 ∧
    encode_var_len ((0 : Nat) : Int) = [0] ∧
    ((encode_var_len ((1000000 : Nat) : Int)).length = 1 ↔ 1000000 < 128) :=
  claim2_vlq_roundtrip 1000000 (by decide)

/-- C3: the render-time sort is keyed on the tick only and is stable:
it sorts by tick, permutes the events, and events sharing a tick keep
their insertion order (their tick-filtered subsequence is unchanged);
in particular appending `(5, A)`, `(5, B)`, `(3, C)` renders them in
the order `C, A, B`. -/
theorem claim3_stable_sort :
    (∀ l : List Event,
        (sort_events l).Pairwise (fun a b => a.1 ≤ b.1) ∧
        List.Perm (sort_events l) l ∧
        ∀ k : Int, (sort_events l).filter (fun e => e.1 == k)
          = l.filter (fun e => e.1 == k)) ∧
    sort_events [(5, [65]), (5, [66]), (3, [67])]
      = [(3, [67]), (5, [65]), (5, [66])] :=
  ⟨fun l => ⟨sort_events_sorted l, sort_events_perm l,
    fun k => sort_events_filter k l⟩, by decide⟩

/-- C4 counterexample: a fresh Document has zero tracks — not exactly
one — yet the rendered header carries format bytes `00 00` (format 0),
not the `00 01` the claim demands for every track count other than
one. -/
theorem claim4_counterexample :
    freshWriter.tracks.length = 0 ∧
    saveBytes freshWriter
      = some [0x4D, 0x54, 0x68, 0x64, 0, 0, 0, 6, 0, 0, 0, 0, 1, 224] := by
  decide

/-- C4 (amended): whenever `save` renders successfully, the header's
16-bit big-endian format field is 0 if the document has at most one
track and 1 if it has two or more, the numTracks field is the 16-bit
big-endian track count, and the division field is always 480
(bytes `01 E0`). -/
theorem claim4_header (w : MidiWriter) (bs : List Nat)
    (hw : Reachable w) (h : saveBytes w = some bs) :
    bs.take 14
      = [0x4D, 0x54, 0x68, 0x64, 0, 0, 0, 6]
        ++ (if 1 < w.tracks.length then [0, 1] else [0, 0])
        ++ [w.tracks.length / 256, w.tracks.length % 256] ++ [1, 224] ∧
    w.tracks.length / 256 * 256 + w.tracks.length % 256 = w.tracks.length ∧
    w.ticks_per_quarter = 480 := by
  have htpq : w.ticks_per_quarter = 480 := reachable_tpq hw
  have hlen : (savePost w).tracks.length = w.tracks.length := by simp [savePost]
  unfold saveBytes at h
  dsimp only at h
  rw [hlen] at h
  split at h
  case isFalse => exact absurd h (by simp)
  case isTrue hrange =>
    split at h
    case h_2 => exact absurd h (by simp)
    case h_1 chunks hchunks =>
      injection h with h
      subst h
      have htpq2 : (savePost w).ticks_per_quarter = 480 := htpq
      rw [htpq2]
      have hdiv : w.tracks.length / 256 % 256 = w.tracks.length / 256 := by omega
      refine ⟨?_, by omega, htpq⟩
      rw [List.take_left' (by simp [be16, be32])]
      by_cases h1 : 1 < w.tracks.length <;>
        simp [h1, be16, be32, hdiv]

theorem claim4_header_witness :
    (([77, 84, 104, 100, 0, 0, 0, 6, 0, 1, 0, 2, 1, 224,
       77, 84, 114, 107, 0, 0, 0, 4, 0, 255, 47, 0,
       77, 84, 114, 107, 0, 0, 0, 4, 0, 255, 47, 0] : List Nat)).take 14
      = [0x4D, 0x54, 0x68, 0x64, 0, 0, 0, 6]
        ++ (if 1 < (addTrack (addTrack freshWriter).1).1.tracks.length
            then [0, 1] else [0, 0])
        ++ [(addTrack (addTrack freshWriter).1).1.tracks.length / 256,
            (addTrack (addTrack freshWriter).1).1.tracks.length % 256] ++ [1, 224] ∧
    (addTrack (addTrack freshWriter).1).1.tracks.length / 256 * 256
        + (addTrack (addTrack freshWriter).1).1.tracks.length % 256
      = (addTrack (addTrack freshWriter).1).1.tracks.length ∧
    (addTrack (addTrack freshWriter).1).1.ticks_per_quarter = 480 :=
  claim4_header (addTrack (addTrack freshWriter).1).1 _
    (Reachable.step_addTrack (Reachable.step_addTrack Reachable.fresh)) (by decide)

/-- C5: the claim fails on the code — `addBPM` with `bpm` 1, 2 or 3
passes validation yet raises an uncaught `OverflowError` from
`tempo.to_bytes(3, "big")` because `60000000 // bpm ≥ 2 ^ 24` (the
`try/except` only protects the validation); from `bpm = 4` on the call
appends the tempo event as described. -/
theorem claim5_bpm_overflow :
    addBPM freshWriter 0 0 1 = none ∧
    addBPM freshWriter 0 0 2 = none ∧
    addBPM freshWriter 0 0 3 = none ∧
    (addBPM freshWriter 0 0 4).isSome = true ∧
    addBPMWarns 0 0 1 = false := by
  decide

/-- C6: a rejected `addNote` or `addBPM` call is a complete no-op:
the result is the unchanged writer (same tracks, same events, same
`channel_program`), the warning-printing branch is taken, and no
exception reaches the caller (`addBPM` still returns a value). -/
theorem claim6_rejection_noop (w : MidiWriter)
    (track channel start duration pitch velocity tb sb bb : Int)
    (hn : track < 0 ∨ channel < 0 ∨ start < 0 ∨ duration ≤ 0 ∨
      velocity < 0 ∨ 127 < velocity)
    (hb : tb < 0 ∨ sb < 0 ∨ bb ≤ 0) :
    addNote w track channel start duration pitch velocity = w ∧
    addNoteWarns track channel start duration velocity = true ∧
    addBPM w tb sb bb = some w ∧
    addBPMWarns tb sb bb = true := by
  have h1 : addNoteWarns track channel start duration velocity = true := by
    simp [addNoteWarns]
    omega
  have h2 : addBPMWarns tb sb bb = true := by
    simp [addBPMWarns]
    omega
  refine ⟨?_, h1, ?_, h2⟩
  · unfold addNote
    simp [h1]
  · unfold addBPM
    simp [h2]

theorem claim6_rejection_noop_witness :
    addNote freshWriter 0 0 0 0 60 120 = freshWriter ∧
    addNoteWarns 0 0 0 0 120 = true ∧
    addBPM freshWriter 0 0 0 = some freshWriter ∧
    addBPMWarns 0 0 0 = true :=
  claim6_rejection_noop freshWriter 0 0 0 0 60 120 0 0 0
    (by omega) (by omega)

/-- C7: in every document built through the public mutator interface,
every delta time computed during rendering — over each sorted track,
previous tick starting at 0 — is non-negative, so no negative value
reaches the variable-length encoder. -/
theorem claim7_deltas_nonneg {w : MidiWriter} (hw : Reachable w) :
    ∀ trk ∈ (savePost w).tracks, ∀ d ∈ deltaTimes 0 trk.events, 0 ≤ d := by
  intro trk htrk
  simp only [savePost, List.mem_map] at htrk
  obtain ⟨t, ht, rfl⟩ := htrk
  refine deltaTimes_nonneg ?_ (sort_events_sorted t.events)
  intro e he
  exact reachable_ticksNonneg hw t ht e ((sort_events_perm t.events).mem_iff.mp he)

theorem claim7_deltas_nonneg_witness : (0 : Int) ≤ 480 :=
  claim7_deltas_nonneg
    (@Reachable.step_addNote freshWriter 0 0 0 480 60 120 Reachable.fresh)
    { events := [((0 : Int), [144, 60, 120]), ((480 : Int), [128, 60, 0])] }
    (by decide) 480 (by decide)

/-- C8 counterexample: on the negative input `-1` the encoder does not
fail fast — it returns the byte string `7F`. -/
theorem claim8_counterexample : encode_var_len (-1) = [0x7F] := by decide

/-- C8 (amended): on a negative input `encode_var_len` raises no
error; it returns the single byte `value mod 128` (no continuation
bit), because the arithmetic right shift of a negative int never
becomes positive, so the packing loop body never runs. -/
theorem claim8_negative_input {v : Int} (h : v < 0) :
    encode_var_len v = [(v % 128).toNat] ∧ (v % 128).toNat < 128 := by
  refine ⟨encode_var_len_neg_eq h, ?_⟩
  omega

theorem claim8_negative_input_witness :
    encode_var_len (-200) = [((-200 : Int) % 128).toNat] ∧
    ((-200 : Int) % 128).toNat < 128 :=
  claim8_negative_input (by norm_num)

/-- C9: `addNote(track=3, ...)` on a fresh Document yields exactly four
tracks, the first three empty; in general the auto-extension grows the
track list to `max (index + 1) length` while keeping every existing
track in place, and track chunks are concatenated in track-list order,
so list index `i` is file track `i`. -/
theorem claim9_auto_extend :
    ((addNote freshWriter 3 0 0 480 60 120).tracks.length = 4 ∧
     (addNote freshWriter 3 0 0 480 60 120).tracks.take 3
        = List.replicate 3 { events := [] }) ∧
    (∀ (ts : List Track) (i : Nat),
        (extendTracks ts i).length = max (i + 1) ts.length ∧
        (extendTracks ts i).take ts.length = ts) ∧
    (∀ ts₁ ts₂ : List Track,
        chunksJoin (ts₁ ++ ts₂)
          = match chunksJoin ts₁, chunksJoin ts₂ with
            | some a, some b => some (a ++ b)
            | _, _ => none) := by
  refine ⟨by decide, fun ts i => ⟨?_, ?_⟩, ?_⟩
  · simp [extendTracks]
    omega
  · rw [extendTracks, List.take_left]
  · intro ts₁ ts₂
    induction ts₁ with
    | nil =>
      cases h : chunksJoin ts₂ <;> simp [chunksJoin, h]
    | cons t ts ih =>
      simp only [List.cons_append, chunksJoin, List.append_eq]
      rw [ih]
      cases trackChunk t <;> cases chunksJoin ts <;> cases chunksJoin ts₂ <;> simp

/-- C10: rendering is idempotent — a second `save`, applied to the
state the first one left behind (tracks sorted in place), produces
byte-identical output, and the state mutation itself is idempotent. -/
theorem claim10_idempotent (w : MidiWriter) :
    saveBytes (savePost w) = saveBytes w ∧ savePost (savePost w) = savePost w := by
  refine ⟨?_, savePost_idem w⟩
  unfold saveBytes
  rw [savePost_idem]

end Midi
